import Mathlib

/-!
Shallow embedding of the dfmutex crate (src/lib.rs).

The crate defines `DFMutex<T>`, a wrapper around `Arc<Mutex<T>>` with
`new`, `lock` (delegating to the inner mutex) and a crate-private `clone`,
plus a `spawn` helper that clones a handle and runs a closure on a fresh
thread, and test scenarios (single lock, lock pairs under an outer lock,
dining philosophers).

`Arc`, `Mutex` and `thread` come from the Rust standard library, which is
not part of this repository; their behaviour is modelled from the spec
(sections 4.1, 4.2: state machine Unlocked/Locked, sticky poisoning on
abnormal termination while holding the guard, join returning the result or
a thread-panicked error).
-/

/-! ## Cell-level model of one `Mutex` cell

Modelled from the spec: a cell has an exclusion state Unlocked/Locked and a
sticky poison flag; `acquire` succeeds only from Unlocked, blocks while
Locked, and fails with `LockPoisoned` once the cell is poisoned. -/

/-- Exclusion state and poison flag of one mutex cell. -/
structure CellSt where
  locked : Bool
  poisoned : Bool
deriving DecidableEq, Repr

/-- The state of a freshly created cell: unlocked, not poisoned. -/
def cellInit : CellSt := ⟨false, false⟩

/-- Error surfaced by `acquire` (spec section 7). -/
inductive LockErr
  | LockPoisoned
deriving DecidableEq, Repr

/-- Outcome of one `acquire` attempt on a cell in a given state. -/
inductive AcqOutcome
  | ok
  | blocked
  | err (e : LockErr)
deriving DecidableEq, Repr

/-- Modelled from the spec: what one `acquire` attempt observes. A poisoned
cell fails with `LockPoisoned`; a locked cell blocks the caller; otherwise
the acquire succeeds. -/
def CellSt.acquireOutcome (c : CellSt) : AcqOutcome :=
  if c.poisoned then .err .LockPoisoned
  else if c.locked then .blocked
  else .ok

/-- Completed events in the life of one cell: a completed `acquire`
(successful, or returning `LockPoisoned`), a guard release on scope exit,
and an abnormal termination (panic) of the holder while holding the guard,
which releases the lock and sets the sticky poison flag. A blocked
`acquire` is not a completed event, so `acquire` on a locked cell has no
successor state here. -/
inductive COp
  | acquire
  | release
  | panicHolding
deriving DecidableEq, Repr

/-- Modelled from the spec: small-step event semantics of one cell. -/
def cstep (c : CellSt) : COp → Option CellSt
  | .acquire =>
      if c.poisoned then some c
      else if c.locked then none
      else some ⟨true, c.poisoned⟩
  | .release =>
      if c.locked then some ⟨false, c.poisoned⟩ else none
  | .panicHolding =>
      if c.locked then some ⟨false, true⟩ else none

/-- Run a list of cell events from a state; `none` when some event is not
enabled (e.g. releasing an unlocked cell). -/
def crun (c : CellSt) : List COp → Option CellSt
  | [] => some c
  | op :: ops =>
      match cstep c op with
      | some c2 => crun c2 ops
      | none => none

/-! ## Heap-level model of `Arc<Mutex<T>>`

Modelled from the spec: the cell is shared by every handle derived from the
same origin via cloning, and carries a shared reference count. A heap is a
list of cells; an `Arc` pointer is the index of its cell. -/

/-- One shared cell: the protected value, exclusion/poison state and the
shared reference count. -/
structure Cell (T : Type) where
  value : T
  st : CellSt
  refcount : Nat
deriving DecidableEq, Repr

/-- A heap of shared cells; a handle's `internal` pointer is an index. -/
abbrev Heap (T : Type) : Type := List (Cell T)

/-- Modelled from the spec: `Arc::new(Mutex::new(v))` allocates a fresh
cell holding `v`, unlocked and unpoisoned, with reference count 1, and
returns its address. -/
def ArcMutex.new (h : Heap T) (v : T) : Nat × Heap T :=
  (List.length h, List.append h [⟨v, cellInit, 1⟩])

/-- Modelled from the spec: `Arc::clone` returns the same address and
increments the shared reference count; it touches nothing else. -/
def Arc.clone (h : Heap T) (i : Nat) : Nat × Heap T :=
  match h[i]? with
  | some c => (i, List.set h i ⟨c.value, c.st, c.refcount + 1⟩)
  | none => (i, h)

/-- Modelled from the spec: what `Mutex::lock` at address `i` observes in
heap `h` (poison error, blocked, or success). -/
def Mutex.lockOutcome (h : Heap T) (i : Nat) : AcqOutcome :=
  match h[i]? with
  | some c => c.st.acquireOutcome
  | none => .blocked

/-- Read the protected value at a handle's cell. -/
def Heap.readVal (h : Heap T) (i : Nat) : Option T :=
  h[i]?.map Cell.value

/-- Overwrite the protected value at a handle's cell (what a holder of the
guard does through `DerefMut`). -/
def Heap.writeVal (h : Heap T) (i : Nat) (v : T) : Heap T :=
  match h[i]? with
  | some c => List.set h i ⟨v, c.st, c.refcount⟩
  | none => h

/-! ## The `DFMutex` type and its operations, transcribed from src/lib.rs -/

/-- `struct DFMutex<T> { internal: Arc<Mutex<T>> }` (src/lib.rs lines
44-47). The `Arc` pointer is the index of the shared cell. -/
structure DFMutex where
  internal : Nat
deriving DecidableEq, Repr

/-- `DFMutex::new` (src/lib.rs lines 50-55):
`DFMutex { internal: Arc::new(Mutex::new(data)) }`. -/
def DFMutex.new (h : Heap T) (data : T) : DFMutex × Heap T :=
  match ArcMutex.new h data with
  | (i, h2) => (⟨i⟩, h2)

/-- `DFMutex::lock` (src/lib.rs lines 57-60): `self.internal.lock()` —
direct delegation to the inner mutex. -/
def DFMutex.lockOutcome (h : Heap T) (m : DFMutex) : AcqOutcome :=
  Mutex.lockOutcome h m.internal

/-- `DFMutex::clone` (src/lib.rs lines 62-64):
`DFMutex { internal: Arc::clone(&self.internal) }`. -/
def DFMutex.clone (h : Heap T) (m : DFMutex) : DFMutex × Heap T :=
  match Arc.clone h m.internal with
  | (i, h2) => (⟨i⟩, h2)

/-! ## API surface, transcribed from the item signatures in src/lib.rs -/

/-- Rust item visibility. -/
inductive Vis
  | pub
  | priv
deriving DecidableEq, Repr

/-- Signature facts of one item: its visibility and whether it takes
`&mut self`. -/
structure SigInfo where
  vis : Vis
  selfMutable : Bool
deriving DecidableEq, Repr

/-- `pub fn new(data: T) -> Self` (src/lib.rs line 51). -/
def sigNew : SigInfo := ⟨.pub, false⟩

/-- `pub fn lock(&mut self) -> LockResult<MutexGuard<T>>`
(src/lib.rs line 58): public, takes `&mut self`. -/
def sigLock : SigInfo := ⟨.pub, true⟩

/-- `fn clone(&self) -> Self` (src/lib.rs line 62): no `pub`, so private
to the crate; `DFMutex` does not derive `Clone` either. -/
def sigClone : SigInfo := ⟨.priv, false⟩

/-- `pub fn spawn<D, T, F>(odfm: &DFMutex<D>, f: F) -> JoinHandle<T>`
(src/lib.rs line 68). -/
def sigSpawn : SigInfo := ⟨.pub, false⟩

/-! ## The thread model and `spawn`, transcribed from src/lib.rs

`thread::spawn` and `JoinHandle::join` are standard library; modelled from
the spec (section 4.2): spawn starts a new unit immediately without
blocking the caller; join blocks until the unit completes and returns the
work's result or fails with `ThreadPanicked`. -/

/-- Error surfaced by `join` (spec section 7). -/
inductive JoinErr
  | ThreadPanicked
deriving DecidableEq, Repr

/-- Status of one spawned execution unit. -/
inductive ThreadOutcome (R : Type)
  | running
  | finished (r : R)
  | panicked
deriving DecidableEq, Repr

/-- Modelled from the spec: the result of `join` on a unit with the given
outcome; `none` means join is still blocking (the unit is running). -/
def joinResult : ThreadOutcome R → Option (Except JoinErr R)
  | .running => none
  | .finished r => some (.ok r)
  | .panicked => some (.error .ThreadPanicked)

/-- Modelled from the spec: join on task handle `i` in a pool of spawned
units. -/
def joinOn (ts : List (ThreadOutcome R)) (i : Nat) : Option (Except JoinErr R) :=
  match ts[i]? with
  | some o => joinResult o
  | none => none

/-- What `spawn` returns and leaves behind: the task handle (index of the
new unit), the `DFMutex` handle moved into the spawned unit, and the heap
after the internal clone. -/
structure SpawnResult (T : Type) where
  task : Nat
  movedHandle : DFMutex
  heap : Heap T
deriving Repr

/-- `spawn` (src/lib.rs lines 68-77): `let codfm = odfm.clone();
thread::spawn(move || f(codfm))`. It clones the handle (the cell, not the
protected value), hands the clone to a newly started unit (appended to the
pool, its index is the returned task handle) and returns at once; nothing
here inspects or waits on the exclusion state. -/
def spawn (h : Heap T) (pool : Nat) (odfm : DFMutex) : SpawnResult T :=
  match DFMutex.clone h odfm with
  | (codfm, h2) => ⟨pool, codfm, h2⟩

/-! ## Interleaving semantics of the single-resource contention scenario

The scenario of the single_lock tests (src/lib.rs lines 98-175): one
`DFMutex` cell, `n` spawned workers, each worker runs
`dfm.lock().unwrap(); <work>; drop(guard)`. States record the shared cell
and each worker's control point; steps are the interleaved completed lock
events of the workers. -/

/-- Control point of one worker in the single-resource scenario:
before the lock, inside the critical section (holding the guard), or
finished. -/
inductive WPc1
  | idle
  | crit
  | finished
deriving DecidableEq, Repr

/-- Global state: the shared cell plus the control point of each worker
(worker `i` is index `i` of `pcs`). -/
structure SLState where
  cell : CellSt
  pcs : List WPc1
deriving DecidableEq, Repr

/-- One interleaving action: worker `i` completes its `lock()` call, or
worker `i` leaves the critical section (its guard is dropped). -/
inductive SLAct
  | acq (i : Nat)
  | rel (i : Nat)
deriving DecidableEq, Repr

/-- Interleaved small-step semantics of the scenario. `acq i` is the
completed `DFMutex::lock().unwrap()` of worker `i`: enabled only when the
cell-level acquire succeeds (the cell is unlocked and unpoisoned). `rel i`
is worker `i`'s guard drop. -/
def slStep (s : SLState) : SLAct → Option SLState
  | .acq i =>
      match s.pcs[i]? with
      | some WPc1.idle =>
          if s.cell.acquireOutcome = AcqOutcome.ok then
            match cstep s.cell COp.acquire with
            | some c2 => some ⟨c2, s.pcs.set i WPc1.crit⟩
            | none => none
          else none
      | _ => none
  | .rel i =>
      match s.pcs[i]? with
      | some WPc1.crit =>
          match cstep s.cell COp.release with
          | some c2 => some ⟨c2, s.pcs.set i WPc1.finished⟩
          | none => none
      | _ => none

/-- Run a list of interleaving actions. -/
def slRun (s : SLState) : List SLAct → Option SLState
  | [] => some s
  | a :: acts =>
      match slStep s a with
      | some s2 => slRun s2 acts
      | none => none

/-- Initial state of the scenario with `n` workers: fresh cell
(`DFMutex::new`), every worker before its `lock()` call. -/
def slInit (n : Nat) : SLState := ⟨cellInit, List.replicate n WPc1.idle⟩

/-- The inductive invariant behind mutual exclusion: when the cell is
unlocked nobody is in the critical section, and at most one worker is in
the critical section. -/
abbrev slInv (s : SLState) : Prop :=
  (s.cell.locked = false → ∀ i : Nat, s.pcs[i]? ≠ some WPc1.crit) ∧
  (∀ i j : Nat, s.pcs[i]? = some WPc1.crit → s.pcs[j]? = some WPc1.crit → i = j)

lemma acquireOutcome_eq_ok {c : CellSt} :
    c.acquireOutcome = AcqOutcome.ok ↔ c.locked = false ∧ c.poisoned = false := by
  rcases c with ⟨l, p⟩
  cases l <;> cases p <;> simp [CellSt.acquireOutcome]

lemma slStep_inv {s s2 : SLState} {a : SLAct} (hinv : slInv s)
    (h : slStep s a = some s2) : slInv s2 := by
  obtain ⟨hun, huniq⟩ := hinv
  cases a with
  | acq i =>
      simp only [slStep] at h
      cases hp : s.pcs[i]? with
      | none => rw [hp] at h; exact absurd h (by simp)
      | some p =>
          rw [hp] at h
          cases p <;> simp at h
          rename s.pcs[i]? = some WPc1.idle => hpi
          rcases h with ⟨hok, h⟩
          rcases acquireOutcome_eq_ok.mp hok with ⟨hl, hpo⟩
          rw [show cstep s.cell COp.acquire = some ⟨true, s.cell.poisoned⟩ by
                simp [cstep, hl, hpo]] at h
          simp at h
          subst h
          constructor
          · intro hfalse; simp at hfalse
          · intro k l hk hl2
            have hcrit : ∀ m : Nat, (s.pcs.set i WPc1.crit)[m]? = some WPc1.crit → m = i := by
              intro m hm
              by_contra hne
              rw [List.getElem?_set_ne (by omega)] at hm
              exact hun hl m hm
            rw [hcrit k hk, hcrit l hl2]
  | rel i =>
      simp only [slStep] at h
      cases hp : s.pcs[i]? with
      | none => rw [hp] at h; exact absurd h (by simp)
      | some p =>
          rw [hp] at h
          cases p <;> simp at h
          rename s.pcs[i]? = some WPc1.crit => hpi
          have hl : s.cell.locked = true := by
            by_contra hc
            exact hun (by simpa using hc) i hpi
          rw [show cstep s.cell COp.release = some ⟨false, s.cell.poisoned⟩ by
                simp [cstep, hl]] at h
          simp at h
          subst h
          constructor
          · intro _ k hk
            by_cases hki : k = i
            · subst hki; simp at hk
              rcases Nat.lt_or_ge k s.pcs.length with hlt | hge
              · rw [List.getElem?_set_self' ] at hk
                · simp [List.getElem?_eq_getElem hlt] at hk
              · rw [List.getElem?_eq_none (by simpa using hge)] at hk; simp at hk
            · rw [List.getElem?_set_ne (by omega)] at hk
              exact absurd (huniq k i hk hpi) hki
          · intro k l hk hl2
            by_cases hki : k = i
            · subst hki
              rcases Nat.lt_or_ge k s.pcs.length with hlt | hge
              · rw [List.getElem?_set_self'] at hk
                simp [List.getElem?_eq_getElem hlt] at hk
              · rw [List.getElem?_eq_none (by simpa using hge)] at hk; simp at hk
            · rw [List.getElem?_set_ne (by omega)] at hk
              by_cases hli : l = i
              · subst hli
                rcases Nat.lt_or_ge l s.pcs.length with hlt | hge
                · rw [List.getElem?_set_self'] at hl2
                  simp [List.getElem?_eq_getElem hlt] at hl2
                · rw [List.getElem?_eq_none (by simpa using hge)] at hl2; simp at hl2
              · rw [List.getElem?_set_ne (by omega)] at hl2
                exact huniq k l hk hl2

lemma slRun_inv {s s2 : SLState} {acts : List SLAct} (hinv : slInv s)
    (h : slRun s acts = some s2) : slInv s2 := by
  induction acts generalizing s with
  | nil => simp [slRun] at h; simpa [← h] using hinv
  | cons a acts ih =>
      simp only [slRun] at h
      cases hs : slStep s a with
      | none => rw [hs] at h; exact absurd h (by simp)
      | some s1 => rw [hs] at h; exact ih (slStep_inv hinv hs) h

lemma slInit_inv (n : Nat) : slInv (slInit n) := by
  constructor
  · intro _ i h
    rcases Nat.lt_or_ge i n with hlt | hge
    · simp [slInit, List.getElem?_replicate, hlt] at h
    · simp [slInit, List.getElem?_eq_none, hge] at h
  · intro i j hi _
    rcases Nat.lt_or_ge i n with hlt | hge
    · simp [slInit, List.getElem?_replicate, hlt] at hi
    · simp [slInit, List.getElem?_eq_none, hge] at hi

/-- C1: Mutual exclusion. For every number `n ≥ 2` of concurrent workers
acquiring the same `DFMutex` cell, in every state reachable by
interleaving their completed lock/unlock events, no two workers are in
their critical sections simultaneously: at most one worker holds a guard
at any instant, so critical sections under the same resource never
overlap. -/
theorem single_resource_mutual_exclusion (n : Nat) (hn : 2 ≤ n)
    (acts : List SLAct) (s : SLState) (h : slRun (slInit n) acts = some s) :
    ∀ i j : Nat, s.pcs[i]? = some WPc1.crit → s.pcs[j]? = some WPc1.crit → i = j := by
  exact (slRun_inv (slInit_inv n) h).2

/-- The state after worker 0 of 2 completes its lock() call. -/
def slWitState : SLState := ⟨⟨true, false⟩, [WPc1.crit, WPc1.idle]⟩

theorem single_resource_mutual_exclusion_witness :
    (2 ≤ 2 ∧ slRun (slInit 2) [SLAct.acq 0] = some slWitState ∧
      slWitState.pcs[0]? = some WPc1.crit) ∧ (0 : Nat) = 0 :=
  ⟨⟨by decide, by decide, by decide⟩,
   single_resource_mutual_exclusion 2 (by decide) [SLAct.acq 0] slWitState
     (by decide) 0 0 (by decide) (by decide)⟩

/-! ## The dining philosophers ring

Transcribed from src/lib.rs lines 448-519 (`dining_philisophers`): five
forks (each a `DFMutex` cell), five philosophers; philosopher `i`
(0-based) holds handles to left fork `i` and right fork `(i+1) % 5`
(lines 500-504). Each worker thinks, then locks its left fork, then its
right fork, then drops both (`Philosopher::eat`, lines 473-483). There is
no outer serializing lock. The model keeps the ring size generic; the
claim is settled at size 5. -/

/-- Control point of one philosopher: before `eat`, holding the left fork
and blocked on the right one, holding both, or finished. -/
inductive PhilPc
  | thinking
  | hasLeft
  | eating
  | donePhil
deriving DecidableEq, Repr

/-- Global state of the ring: the fork cells and each philosopher's
control point. -/
structure DPState where
  forks : List CellSt
  pcs : List PhilPc
deriving DecidableEq, Repr

/-- Interleaving actions: philosopher `i` completes its left-fork lock,
its right-fork lock, or drops both guards. -/
inductive DPAct
  | takeLeft (i : Nat)
  | takeRight (i : Nat)
  | putDown (i : Nat)
deriving DecidableEq, Repr

/-- Interleaved small-step semantics of `Philosopher::eat`: lock left
(fork `i`), then lock right (fork `(i+1) % n`), then drop both. Lock
completion is the cell-level acquire, enabled only when it succeeds. -/
def dpStep (s : DPState) : DPAct → Option DPState
  | .takeLeft i =>
      match s.pcs[i]?, s.forks[i]? with
      | some PhilPc.thinking, some c =>
          if c.acquireOutcome = AcqOutcome.ok then
            match cstep c COp.acquire with
            | some c2 => some ⟨s.forks.set i c2, s.pcs.set i PhilPc.hasLeft⟩
            | none => none
          else none
      | _, _ => none
  | .takeRight i =>
      match s.pcs[i]?, s.forks[(i + 1) % s.forks.length]? with
      | some PhilPc.hasLeft, some c =>
          if c.acquireOutcome = AcqOutcome.ok then
            match cstep c COp.acquire with
            | some c2 =>
                some ⟨s.forks.set ((i + 1) % s.forks.length) c2,
                      s.pcs.set i PhilPc.eating⟩
            | none => none
          else none
      | _, _ => none
  | .putDown i =>
      match s.pcs[i]?, s.forks[i]? with
      | some PhilPc.eating, some c =>
          match cstep c COp.release with
          | some cl =>
              match (s.forks.set i cl)[(i + 1) % s.forks.length]? with
              | some cr =>
                  match cstep cr COp.release with
                  | some cr2 =>
                      some ⟨(s.forks.set i cl).set ((i + 1) % s.forks.length) cr2,
                            s.pcs.set i PhilPc.donePhil⟩
                  | none => none
              | none => none
          | none => none
      | _, _ => none

/-- Run a list of ring actions. -/
def dpRun (s : DPState) : List DPAct → Option DPState
  | [] => some s
  | a :: acts =>
      match dpStep s a with
      | some s2 => dpRun s2 acts
      | none => none

/-- Initial ring state: `n` freshly created fork cells, every philosopher
about to eat. -/
def dpInit (n : Nat) : DPState :=
  ⟨List.replicate n cellInit, List.replicate n PhilPc.thinking⟩

/-- The interleaving in which every philosopher picks up its left fork
before anyone reaches for the right one. -/
def dpDeadPath : List DPAct :=
  [DPAct.takeLeft 0, DPAct.takeLeft 1, DPAct.takeLeft 2,
   DPAct.takeLeft 3, DPAct.takeLeft 4]

/-- The resulting state: all five forks locked, every philosopher holding
its left fork and waiting for its right one. -/
def dpDead : DPState :=
  ⟨List.replicate 5 ⟨true, false⟩, List.replicate 5 PhilPc.hasLeft⟩

lemma dpStep_pcs_out {s : DPState} {i : Nat} (hout : s.pcs[i]? = none) :
    dpStep s (DPAct.takeLeft i) = none ∧ dpStep s (DPAct.takeRight i) = none ∧
    dpStep s (DPAct.putDown i) = none := by
  refine ⟨?_, ?_, ?_⟩ <;> simp [dpStep, hout]

/-- C2: The ring scenario with 5 forks and 5 workers, each locking its
left fork then its right fork with no outer serializing lock, can
deadlock. The interleaving in which every worker completes its left-fork
lock first is a valid execution; it reaches a state in which every worker
holds its left fork, no worker has finished, no action is enabled, and no
sequence of further actions makes any progress — the primitive offers no
structural protection against this circular wait. -/
theorem dining_ring_deadlock :
    dpRun (dpInit 5) dpDeadPath = some dpDead
    ∧ (∀ i : Nat, i < 5 → dpDead.pcs[i]? = some PhilPc.hasLeft)
    ∧ (∀ a : DPAct, dpStep dpDead a = none)
    ∧ (∀ acts : List DPAct, acts ≠ [] → dpRun dpDead acts = none) := by
  have hstuck : ∀ a : DPAct, dpStep dpDead a = none := by
    have hout : ∀ i : Nat, 5 ≤ i → dpDead.pcs[i]? = none := by
      intro i hi
      apply List.getElem?_eq_none
      simpa [dpDead] using hi
    intro a
    cases a with
    | takeLeft i =>
        rcases Nat.lt_or_ge i 5 with hlt | hge
        · interval_cases i <;> decide
        · exact (dpStep_pcs_out (hout i hge)).1
    | takeRight i =>
        rcases Nat.lt_or_ge i 5 with hlt | hge
        · interval_cases i <;> decide
        · exact (dpStep_pcs_out (hout i hge)).2.1
    | putDown i =>
        rcases Nat.lt_or_ge i 5 with hlt | hge
        · interval_cases i <;> decide
        · exact (dpStep_pcs_out (hout i hge)).2.2
  refine ⟨by decide, by decide, hstuck, ?_⟩
  intro acts hne
  cases acts with
  | nil => exact absurd rfl hne
  | cons a rest => simp [dpRun, hstuck a]

/-! ## The paired-resource scenarios under an outer lock

Transcribed from src/lib.rs: `lock_pair_straight_order` (lines 177-282)
and `lock_pair_swapped_order` (lines 284-445). Two inner `DFMutex` cells
`m1`, `m2` are wrapped in an outer `DFMutex`; every worker first locks the
outer cell, then the two inner cells — either `m1` then `m2`
(`closure_a`, the only order in the straight scenario) or `m2` then `m1`
(`closure_b`, used by every second worker in the swapped scenario) — and
drops all three guards at the end of its closure. A worker's order is a
Bool: `false` for `m1`-then-`m2`, `true` for `m2`-then-`m1`; an arbitrary
order list covers both scenarios. -/

/-- Control point of one worker: before the outer lock, holding the outer
guard, additionally holding its first inner guard, holding both inner
guards, or finished. -/
inductive WPc2
  | start
  | hasOuter
  | hasFirst
  | hasBoth
  | doneW
deriving DecidableEq, Repr

/-- Global state: the outer cell, the two inner cells `la` (`m1`) and
`lb` (`m2`), and each worker's (order, control point). -/
structure PRState where
  outer : CellSt
  la : CellSt
  lb : CellSt
  ws : List (Bool × WPc2)
deriving DecidableEq, Repr

/-- Interleaving actions: worker `i` completes its outer lock, its first
inner lock, its second inner lock, or drops all three guards. -/
inductive PRAct
  | acqOuter (i : Nat)
  | acqFirst (i : Nat)
  | acqSecond (i : Nat)
  | finishW (i : Nat)
deriving DecidableEq, Repr

/-- The inner cell a worker with the given order locks first. -/
def firstCell (s : PRState) (o : Bool) : CellSt := if o then s.lb else s.la

/-- The inner cell a worker with the given order locks second. -/
def secondCell (s : PRState) (o : Bool) : CellSt := if o then s.la else s.lb

/-- Replace the inner cell a worker with the given order locks first. -/
def setFirst (s : PRState) (o : Bool) (c : CellSt) : PRState :=
  if o then { s with lb := c } else { s with la := c }

/-- Replace the inner cell a worker with the given order locks second. -/
def setSecond (s : PRState) (o : Bool) (c : CellSt) : PRState :=
  if o then { s with la := c } else { s with lb := c }

/-- Interleaved small-step semantics of the paired scenarios. Each lock
completion is the cell-level acquire; `finishW` is the drop of the three
guards at the end of the worker's closure. -/
def prStep (s : PRState) : PRAct → Option PRState
  | .acqOuter i =>
      match s.ws[i]? with
      | some (o, WPc2.start) =>
          if s.outer.acquireOutcome = AcqOutcome.ok then
            match cstep s.outer COp.acquire with
            | some c2 =>
                some { s with outer := c2, ws := s.ws.set i (o, WPc2.hasOuter) }
            | none => none
          else none
      | _ => none
  | .acqFirst i =>
      match s.ws[i]? with
      | some (o, WPc2.hasOuter) =>
          if (firstCell s o).acquireOutcome = AcqOutcome.ok then
            match cstep (firstCell s o) COp.acquire with
            | some c2 =>
                some (setFirst { s with ws := s.ws.set i (o, WPc2.hasFirst) } o c2)
            | none => none
          else none
      | _ => none
  | .acqSecond i =>
      match s.ws[i]? with
      | some (o, WPc2.hasFirst) =>
          if (secondCell s o).acquireOutcome = AcqOutcome.ok then
            match cstep (secondCell s o) COp.acquire with
            | some c2 =>
                some (setSecond { s with ws := s.ws.set i (o, WPc2.hasBoth) } o c2)
            | none => none
          else none
      | _ => none
  | .finishW i =>
      match s.ws[i]? with
      | some (o, WPc2.hasBoth) =>
          match cstep s.la COp.release, cstep s.lb COp.release,
                cstep s.outer COp.release with
          | some a2, some b2, some o2 =>
              some ⟨o2, a2, b2, s.ws.set i (o, WPc2.doneW)⟩
          | _, _, _ => none
      | _ => none

/-- Run a list of paired-scenario actions. -/
def prRun (s : PRState) : List PRAct → Option PRState
  | [] => some s
  | a :: acts =>
      match prStep s a with
      | some s2 => prRun s2 acts
      | none => none

/-- Initial state: three freshly created cells, every worker before its
outer lock, with the given acquisition orders. -/
def prInit (orders : List Bool) : PRState :=
  ⟨cellInit, cellInit, cellInit, orders.map (fun o => (o, WPc2.start))⟩

/-- Is a worker between its outer lock and the drop of its guards? -/
def midPc : WPc2 → Bool
  | .hasOuter => true
  | .hasFirst => true
  | .hasBoth => true
  | _ => false

/-- Does a worker with the given order and control point hold inner cell
`la` (`m1`)? -/
def holdsLa (o : Bool) : WPc2 → Bool
  | .hasFirst => !o
  | .hasBoth => true
  | _ => false

/-- Does a worker with the given order and control point hold inner cell
`lb` (`m2`)? -/
def holdsLb (o : Bool) : WPc2 → Bool
  | .hasFirst => o
  | .hasBoth => true
  | _ => false

/-- The inductive invariant of the paired scenarios: nothing is poisoned,
and either nobody is past the outer lock and all three cells are free, or
exactly one worker is (outer serialization), and the two inner cells are
locked exactly as that worker's order and control point dictate. -/
abbrev prInv (s : PRState) : Prop :=
  s.outer.poisoned = false ∧ s.la.poisoned = false ∧ s.lb.poisoned = false ∧
  ((s.outer.locked = false ∧ s.la.locked = false ∧ s.lb.locked = false ∧
      ∀ i : Nat, ∀ o p, s.ws[i]? = some (o, p) → midPc p = false)
    ∨ (∃ i : Nat, ∃ o p, s.ws[i]? = some (o, p) ∧ midPc p = true ∧
        s.outer.locked = true ∧ s.la.locked = holdsLa o p ∧
        s.lb.locked = holdsLb o p ∧
        ∀ j : Nat, ∀ q r, j ≠ i → s.ws[j]? = some (q, r) → midPc r = false))

/-- Has every worker finished? -/
def prAllDone (s : PRState) : Prop :=
  ∀ i : Nat, ∀ o p, s.ws[i]? = some (o, p) → p = WPc2.doneW

/-- How far one worker has progressed. -/
def pcRank : WPc2 → Nat
  | .start => 0
  | .hasOuter => 1
  | .hasFirst => 2
  | .hasBoth => 3
  | .doneW => 4

/-- Total progress of the scenario; strictly increases with every step
and is bounded by `4 * number of workers`, so every execution is finite. -/
def prMeasure (s : PRState) : Nat := (s.ws.map (fun w => pcRank w.2)).sum

lemma cstep_acquire_of_free {c : CellSt} (hl : c.locked = false)
    (hp : c.poisoned = false) : cstep c COp.acquire = some ⟨true, false⟩ := by
  simp [cstep, hl, hp]

lemma cstep_release_of_locked {c : CellSt} (hl : c.locked = true) :
    cstep c COp.release = some ⟨false, c.poisoned⟩ := by
  simp [cstep, hl]

lemma getElem?_set_self_of_some {α : Type} {l : List α} {i : Nat} {w w2 : α}
    (h : l[i]? = some w) : (l.set i w2)[i]? = some w2 := by
  rw [List.getElem?_set_self', h]
  rfl


lemma prStep_inv {s s2 : PRState} {a : PRAct} (hinv : prInv s)
    (h : prStep s a = some s2) : prInv s2 := by
  obtain ⟨hop, hap, hbp, hdisj⟩ := hinv
  cases a with
  | acqOuter i =>
      simp only [prStep] at h
      split at h
      next o hw =>
        split at h
        next hok =>
          obtain ⟨hol, -⟩ := acquireOutcome_eq_ok.mp hok
          rw [cstep_acquire_of_free hol hop] at h
          simp at h
          subst h
          refine ⟨rfl, hap, hbp, Or.inr ⟨i, o, WPc2.hasOuter, ?_, rfl, rfl, ?_, ?_, ?_⟩⟩
          · exact getElem?_set_self_of_some hw
          · rcases hdisj with ⟨-, hal, -, -⟩ | ⟨k, q, r, -, -, houtl, -, -, -⟩
            · simpa [holdsLa] using hal
            · rw [hol] at houtl; cases houtl
          · rcases hdisj with ⟨-, -, hbl, -⟩ | ⟨k, q, r, -, -, houtl, -, -, -⟩
            · simpa [holdsLb] using hbl
            · rw [hol] at houtl; cases houtl
          · intro j q r hji hwj
            rw [List.getElem?_set_ne (by omega)] at hwj
            rcases hdisj with ⟨-, -, -, hnomid⟩ | ⟨k, q2, r2, -, -, houtl, -, -, -⟩
            · exact hnomid j q r hwj
            · rw [hol] at houtl; cases houtl
        next => exact absurd h (by simp)
      next => exact absurd h (by simp)
  | acqFirst i =>
      simp only [prStep] at h
      split at h
      next o hw =>
        rcases hdisj with ⟨-, -, -, hnomid⟩ | hmid
        · exact absurd (hnomid i o WPc2.hasOuter hw) (by simp [midPc])
        obtain ⟨k, q, r, hwk, hmidk, houtl, hlal, hlbl, hrest⟩ := hmid
        have hik : i = k := by
          by_contra hne
          exact absurd (hrest i o WPc2.hasOuter hne hw) (by simp [midPc])
        subst hik
        rw [hw] at hwk
        injection hwk with hwk
        cases hwk
        split at h
        next hok =>
          obtain ⟨hfl, hfp⟩ := acquireOutcome_eq_ok.mp hok
          rw [cstep_acquire_of_free hfl hfp] at h
          simp at h
          subst h
          cases o with
          | false =>
              refine ⟨hop, rfl, hbp,
                Or.inr ⟨i, false, WPc2.hasFirst, ?_, rfl, houtl, ?_, ?_, ?_⟩⟩
              · exact getElem?_set_self_of_some hw
              · rfl
              · simpa [holdsLb] using hlbl
              · intro j q2 r2 hji hwj
                rw [show (setFirst { s with ws := s.ws.set i (false, WPc2.hasFirst) }
                      false ⟨true, false⟩).ws = s.ws.set i (false, WPc2.hasFirst)
                      from rfl] at hwj
                rw [List.getElem?_set_ne (by omega)] at hwj
                exact hrest j q2 r2 hji hwj
          | true =>
              refine ⟨hop, hap, rfl,
                Or.inr ⟨i, true, WPc2.hasFirst, ?_, rfl, houtl, ?_, ?_, ?_⟩⟩
              · exact getElem?_set_self_of_some hw
              · simpa [holdsLa] using hlal
              · rfl
              · intro j q2 r2 hji hwj
                rw [show (setFirst { s with ws := s.ws.set i (true, WPc2.hasFirst) }
                      true ⟨true, false⟩).ws = s.ws.set i (true, WPc2.hasFirst)
                      from rfl] at hwj
                rw [List.getElem?_set_ne (by omega)] at hwj
                exact hrest j q2 r2 hji hwj
        next => exact absurd h (by simp)
      next => exact absurd h (by simp)
  | acqSecond i =>
      simp only [prStep] at h
      split at h
      next o hw =>
        rcases hdisj with ⟨-, -, -, hnomid⟩ | hmid
        · exact absurd (hnomid i o WPc2.hasFirst hw) (by simp [midPc])
        obtain ⟨k, q, r, hwk, hmidk, houtl, hlal, hlbl, hrest⟩ := hmid
        have hik : i = k := by
          by_contra hne
          exact absurd (hrest i o WPc2.hasFirst hne hw) (by simp [midPc])
        subst hik
        rw [hw] at hwk
        injection hwk with hwk
        cases hwk
        split at h
        next hok =>
          obtain ⟨hfl, hfp⟩ := acquireOutcome_eq_ok.mp hok
          rw [cstep_acquire_of_free hfl hfp] at h
          simp at h
          subst h
          cases o with
          | false =>
              refine ⟨hop, hap, rfl,
                Or.inr ⟨i, false, WPc2.hasBoth, ?_, rfl, houtl, ?_, ?_, ?_⟩⟩
              · exact getElem?_set_self_of_some hw
              · simpa [holdsLa] using hlal
              · rfl
              · intro j q2 r2 hji hwj
                rw [show (setSecond { s with ws := s.ws.set i (false, WPc2.hasBoth) }
                      false ⟨true, false⟩).ws = s.ws.set i (false, WPc2.hasBoth)
                      from rfl] at hwj
                rw [List.getElem?_set_ne (by omega)] at hwj
                exact hrest j q2 r2 hji hwj
          | true =>
              refine ⟨hop, rfl, hbp,
                Or.inr ⟨i, true, WPc2.hasBoth, ?_, rfl, houtl, ?_, ?_, ?_⟩⟩
              · exact getElem?_set_self_of_some hw
              · rfl
              · simpa [holdsLb] using hlbl
              · intro j q2 r2 hji hwj
                rw [show (setSecond { s with ws := s.ws.set i (true, WPc2.hasBoth) }
                      true ⟨true, false⟩).ws = s.ws.set i (true, WPc2.hasBoth)
                      from rfl] at hwj
                rw [List.getElem?_set_ne (by omega)] at hwj
                exact hrest j q2 r2 hji hwj
        next => exact absurd h (by simp)
      next => exact absurd h (by simp)
  | finishW i =>
      simp only [prStep] at h
      split at h
      next o hw =>
        rcases hdisj with ⟨-, -, -, hnomid⟩ | hmid
        · exact absurd (hnomid i o WPc2.hasBoth hw) (by simp [midPc])
        obtain ⟨k, q, r, hwk, hmidk, houtl, hlal, hlbl, hrest⟩ := hmid
        have hik : i = k := by
          by_contra hne
          exact absurd (hrest i o WPc2.hasBoth hne hw) (by simp [midPc])
        subst hik
        rw [hw] at hwk
        injection hwk with hwk
        cases hwk
        rw [cstep_release_of_locked (by rw [hlal]; rfl),
            cstep_release_of_locked (by rw [hlbl]; rfl),
            cstep_release_of_locked houtl] at h
        simp at h
        subst h
        refine ⟨by simpa using hop, by simpa using hap, by simpa using hbp,
          Or.inl ⟨rfl, rfl, rfl, ?_⟩⟩
        intro j q2 r2 hwj
        by_cases hji : j = i
        · subst hji
          rw [getElem?_set_self_of_some hw] at hwj
          injection hwj with hwj
          cases hwj
          rfl
        · rw [List.getElem?_set_ne (by omega)] at hwj
          exact hrest j q2 r2 hji hwj
      next => exact absurd h (by simp)

lemma prRun_inv {s s2 : PRState} {acts : List PRAct} (hinv : prInv s)
    (h : prRun s acts = some s2) : prInv s2 := by
  induction acts generalizing s with
  | nil => simp [prRun] at h; simpa [← h] using hinv
  | cons a acts ih =>
      simp only [prRun] at h
      cases hs : prStep s a with
      | none => rw [hs] at h; exact absurd h (by simp)
      | some s1 => rw [hs] at h; exact ih (prStep_inv hinv hs) h

lemma prInit_inv (orders : List Bool) : prInv (prInit orders) := by
  refine ⟨rfl, rfl, rfl, Or.inl ⟨rfl, rfl, rfl, ?_⟩⟩
  intro i o p hw
  rw [show (prInit orders).ws = orders.map (fun o => (o, WPc2.start)) from rfl,
      List.getElem?_map] at hw
  cases ho : orders[i]? with
  | none => rw [ho] at hw; cases hw
  | some o2 =>
      rw [ho] at hw
      simp only [Option.map_some'] at hw
      injection hw with hw
      cases hw
      rfl

lemma prInv_progress {s : PRState} (hinv : prInv s) (hnd : ¬ prAllDone s) :
    ∃ a s2, prStep s a = some s2 := by
  obtain ⟨hop, hap, hbp, hdisj⟩ := hinv
  rcases hdisj with ⟨hol, hal, hbl, hnomid⟩ | hmid
  · simp only [prAllDone] at hnd
    push_neg at hnd
    obtain ⟨i, o, p, hw, hne⟩ := hnd
    have hmid := hnomid i o p hw
    cases p with
    | hasOuter => exact absurd hmid (by simp [midPc])
    | hasFirst => exact absurd hmid (by simp [midPc])
    | hasBoth => exact absurd hmid (by simp [midPc])
    | doneW => exact absurd rfl hne
    | start =>
        exact ⟨PRAct.acqOuter i,
          { s with outer := ⟨true, false⟩, ws := s.ws.set i (o, WPc2.hasOuter) },
          by simp [prStep, hw, acquireOutcome_eq_ok.mpr ⟨hol, hop⟩,
                   cstep_acquire_of_free hol hop]⟩
  · obtain ⟨k, o, p, hwk, hmidp, houtl, hlal, hlbl, hrest⟩ := hmid
    cases p with
    | start => exact absurd hmidp (by simp [midPc])
    | doneW => exact absurd hmidp (by simp [midPc])
    | hasOuter =>
        cases o with
        | false =>
            have hfree : s.la.locked = false := by simpa [holdsLa] using hlal
            exact ⟨PRAct.acqFirst k,
              setFirst { s with ws := s.ws.set k (false, WPc2.hasFirst) }
                false ⟨true, false⟩,
              by simp [prStep, hwk, firstCell,
                       acquireOutcome_eq_ok.mpr ⟨hfree, hap⟩,
                       cstep_acquire_of_free hfree hap]⟩
        | true =>
            have hfree : s.lb.locked = false := by simpa [holdsLb] using hlbl
            exact ⟨PRAct.acqFirst k,
              setFirst { s with ws := s.ws.set k (true, WPc2.hasFirst) }
                true ⟨true, false⟩,
              by simp [prStep, hwk, firstCell,
                       acquireOutcome_eq_ok.mpr ⟨hfree, hbp⟩,
                       cstep_acquire_of_free hfree hbp]⟩
    | hasFirst =>
        cases o with
        | false =>
            have hfree : s.lb.locked = false := by simpa [holdsLb] using hlbl
            exact ⟨PRAct.acqSecond k,
              setSecond { s with ws := s.ws.set k (false, WPc2.hasBoth) }
                false ⟨true, false⟩,
              by simp [prStep, hwk, secondCell,
                       acquireOutcome_eq_ok.mpr ⟨hfree, hbp⟩,
                       cstep_acquire_of_free hfree hbp]⟩
        | true =>
            have hfree : s.la.locked = false := by simpa [holdsLa] using hlal
            exact ⟨PRAct.acqSecond k,
              setSecond { s with ws := s.ws.set k (true, WPc2.hasBoth) }
                true ⟨true, false⟩,
              by simp [prStep, hwk, secondCell,
                       acquireOutcome_eq_ok.mpr ⟨hfree, hap⟩,
                       cstep_acquire_of_free hfree hap]⟩
    | hasBoth =>
        have hla : s.la.locked = true := by simpa [holdsLa] using hlal
        have hlb : s.lb.locked = true := by simpa [holdsLb] using hlbl
        exact ⟨PRAct.finishW k,
          ⟨⟨false, s.outer.poisoned⟩, ⟨false, s.la.poisoned⟩,
           ⟨false, s.lb.poisoned⟩, s.ws.set k (o, WPc2.doneW)⟩,
          by simp [prStep, hwk, cstep_release_of_locked hla,
                   cstep_release_of_locked hlb, cstep_release_of_locked houtl]⟩

lemma sum_map_set_lt {α : Type} (f : α → Nat) {l : List α} {i : Nat} {w w2 : α}
    (h : l[i]? = some w) (hlt : f w < f w2) :
    (l.map f).sum < ((l.set i w2).map f).sum := by
  induction l generalizing i with
  | nil => simp at h
  | cons x t ih =>
      cases i with
      | zero =>
          simp only [List.getElem?_cons_zero, Option.some.injEq] at h
          subst h
          simp only [List.set, List.map_cons, List.sum_cons]
          omega
      | succ n =>
          simp only [List.getElem?_cons_succ] at h
          have := ih h
          simp only [List.set, List.map_cons, List.sum_cons]
          omega

lemma setFirst_ws (s : PRState) (o : Bool) (c : CellSt) :
    (setFirst s o c).ws = s.ws := by
  cases o <;> rfl

lemma setSecond_ws (s : PRState) (o : Bool) (c : CellSt) :
    (setSecond s o c).ws = s.ws := by
  cases o <;> rfl

lemma prStep_measure {s s2 : PRState} {a : PRAct} (h : prStep s a = some s2) :
    prMeasure s < prMeasure s2 := by
  cases a with
  | acqOuter i =>
      simp only [prStep] at h
      split at h
      next o hw =>
        split at h
        next =>
          cases hc : cstep s.outer COp.acquire with
          | none => rw [hc] at h; exact absurd h (by simp)
          | some c2 =>
              rw [hc] at h
              simp at h
              subst h
              exact sum_map_set_lt _ hw (by simp [pcRank])
        next => exact absurd h (by simp)
      next => exact absurd h (by simp)
  | acqFirst i =>
      simp only [prStep] at h
      split at h
      next o hw =>
        split at h
        next =>
          cases hc : cstep (firstCell s o) COp.acquire with
          | none => rw [hc] at h; exact absurd h (by simp)
          | some c2 =>
              rw [hc] at h
              simp at h
              subst h
              simp only [prMeasure, setFirst_ws]
              exact sum_map_set_lt _ hw (by simp [pcRank])
        next => exact absurd h (by simp)
      next => exact absurd h (by simp)
  | acqSecond i =>
      simp only [prStep] at h
      split at h
      next o hw =>
        split at h
        next =>
          cases hc : cstep (secondCell s o) COp.acquire with
          | none => rw [hc] at h; exact absurd h (by simp)
          | some c2 =>
              rw [hc] at h
              simp at h
              subst h
              simp only [prMeasure, setSecond_ws]
              exact sum_map_set_lt _ hw (by simp [pcRank])
        next => exact absurd h (by simp)
      next => exact absurd h (by simp)
  | finishW i =>
      simp only [prStep] at h
      split at h
      next o hw =>
        split at h
        next a2 b2 o2 =>
          simp at h
          subst h
          exact sum_map_set_lt _ hw (by simp [pcRank])
        next => exact absurd h (by simp)
      next => exact absurd h (by simp)

lemma sum_map_rank_le (l : List (Bool × WPc2)) :
    (l.map (fun w => pcRank w.2)).sum ≤ 4 * l.length := by
  induction l with
  | nil => simp
  | cons x t ih =>
      have hx : pcRank x.2 ≤ 4 := by
        cases hz : x.2 <;> simp [pcRank]
      simp only [List.map_cons, List.sum_cons, List.length_cons]
      omega

/-- C9: Both paired-resource scenarios are deadlock-free by construction.
For any worker orders (all `m1`-then-`m2` as in the straight scenario, or
alternating as in the swapped scenario), in every reachable state: if not
all workers are done then some action is enabled (no reachable state is a
deadlock), every step strictly increases the progress measure, and the
measure is bounded by `4 * number of workers` — so every maximal
interleaving is finite and ends with all workers finished. The outer lock
serializes the inner acquisitions, so the inner acquisition order never
matters. -/
theorem paired_scenarios_always_complete (orders : List Bool)
    (acts : List PRAct) (s : PRState) (h : prRun (prInit orders) acts = some s) :
    (¬ prAllDone s → ∃ a s2, prStep s a = some s2)
    ∧ (∀ a s2, prStep s a = some s2 → prMeasure s < prMeasure s2)
    ∧ prMeasure s ≤ 4 * s.ws.length := by
  have hinv := prRun_inv (prInit_inv orders) h
  exact ⟨prInv_progress hinv, fun a s2 hs => prStep_measure hs,
    sum_map_rank_le s.ws⟩

/-- The state after worker 0 of the swapped scenario with orders
[m1-then-m2, m2-then-m1] completes its outer lock. -/
def prWitState : PRState :=
  ⟨⟨true, false⟩, cellInit, cellInit, [(false, WPc2.hasOuter), (true, WPc2.start)]⟩

theorem paired_scenarios_always_complete_witness :
    prRun (prInit [false, true]) [PRAct.acqOuter 0] = some prWitState ∧
    prMeasure prWitState ≤ 4 * prWitState.ws.length :=
  ⟨by decide,
   (paired_scenarios_always_complete [false, true] [PRAct.acqOuter 0] prWitState
      (by decide)).2.2⟩

/-! ## Functional properties of the primitive operations -/

lemma cstep_poisoned {c0 c1 : CellSt} {op : COp} (hs : cstep c0 op = some c1) :
    (c1.poisoned = true ↔ (c0.poisoned = true ∨ op = COp.panicHolding)) := by
  rcases c0 with ⟨l, p⟩
  rcases c1 with ⟨l1, p1⟩
  revert hs
  cases op <;> cases l <;> cases p <;> cases l1 <;> cases p1 <;> decide

lemma crun_poisoned {c0 c : CellSt} {ops : List COp}
    (h : crun c0 ops = some c) :
    (c.poisoned = true ↔ (c0.poisoned = true ∨ COp.panicHolding ∈ ops)) := by
  induction ops generalizing c0 with
  | nil =>
      simp only [crun, Option.some.injEq] at h
      subst h
      simp
  | cons op t ih =>
      simp only [crun] at h
      cases hs : cstep c0 op with
      | none => rw [hs] at h; exact absurd h (by simp)
      | some c1 =>
          rw [hs] at h
          rw [ih h, cstep_poisoned hs]
          constructor
          · rintro ((hp | rfl) | ht)
            · exact Or.inl hp
            · exact Or.inr (List.mem_cons_self _ _)
            · exact Or.inr (List.mem_cons_of_mem _ ht)
          · rintro (hp | hmem)
            · exact Or.inl (Or.inl hp)
            · rcases List.mem_cons.mp hmem with heq | ht
              · exact Or.inl (Or.inr heq.symm)
              · exact Or.inr ht

/-- C4: Poisoning. Along every valid event history of one cell starting
from a fresh cell, the next `acquire` fails with `LockPoisoned` exactly
when some previous holder terminated abnormally (panicked) while holding
the guard. In particular the poison is sticky — once a `panicHolding`
event occurred, every later history still contains it, so every
subsequent acquire on that cell fails the same way, and no event of the
cell clears it — and on a poisoned cell the acquire outcome is the error,
never `blocked` (a hang) and never `ok` (a silent success). -/
theorem poisoning_iff (ops : List COp) (c : CellSt)
    (h : crun cellInit ops = some c) :
    (c.acquireOutcome = AcqOutcome.err LockErr.LockPoisoned ↔
      COp.panicHolding ∈ ops) := by
  have hp := crun_poisoned h
  have ho : c.acquireOutcome = AcqOutcome.err LockErr.LockPoisoned ↔
      c.poisoned = true := by
    rcases c with ⟨l, p⟩
    cases l <;> cases p <;> simp [CellSt.acquireOutcome]
  rw [ho, hp]
  simp [cellInit]

theorem poisoning_iff_witness :
    crun cellInit [COp.acquire, COp.panicHolding] = some ⟨false, true⟩ ∧
    (CellSt.acquireOutcome ⟨false, true⟩ = AcqOutcome.err LockErr.LockPoisoned ↔
      COp.panicHolding ∈ [COp.acquire, COp.panicHolding]) :=
  ⟨by decide,
   poisoning_iff [COp.acquire, COp.panicHolding] ⟨false, true⟩ (by decide)⟩

/-- C7: `DFMutex::new` creates a fresh cell — its address was not in use
in the old heap — holding exactly the given value, unlocked and
unpoisoned, with reference count 1. The operation is total: it succeeds
for every input value and heap (its return type has no error case). -/
theorem new_fresh_unlocked {T : Type} (h : Heap T) (v : T) :
    (h[(DFMutex.new h v).1.internal]? : Option (Cell T)) = none
    ∧ ((DFMutex.new h v).2)[(DFMutex.new h v).1.internal]?
        = some ⟨v, cellInit, 1⟩
    ∧ (DFMutex.new h v).1.internal = List.length h := by
  refine ⟨?_, ?_, rfl⟩
  · exact List.getElem?_eq_none le_rfl
  · exact List.getElem?_concat_length h ⟨v, cellInit, 1⟩

/-- C3: The primitive implements no deadlock-prevention mechanism. Each
`DFMutex` operation is exactly the corresponding operation on a plain
reference-counted mutex: `new` wraps the address returned by
`Arc::new(Mutex::new(v))` and leaves the same heap, `lock` is exactly the
inner mutex's lock, `clone` is exactly `Arc::clone`; moreover the lock
outcome depends only on the handle's own cell — two heaps that agree on
that one cell give the same outcome — so no ordering, detection or
avoidance logic consulting any other resource exists, despite the type's
documentation claiming a guaranteed deadlock-free implementation
(src/lib.rs lines 6-10, 43). -/
theorem dfmutex_is_plain_mutex {T : Type} (h h2 : Heap T) (v : T) (m : DFMutex)
    (hagree : h[m.internal]? = h2[m.internal]?) :
    ((DFMutex.new h v).1.internal = (ArcMutex.new h v).1
      ∧ (DFMutex.new h v).2 = (ArcMutex.new h v).2)
    ∧ DFMutex.lockOutcome h m = Mutex.lockOutcome h m.internal
    ∧ ((DFMutex.clone h m).1.internal = (Arc.clone h m.internal).1
      ∧ (DFMutex.clone h m).2 = (Arc.clone h m.internal).2)
    ∧ DFMutex.lockOutcome h m = DFMutex.lockOutcome h2 m := by
  refine ⟨⟨rfl, rfl⟩, rfl, ⟨rfl, rfl⟩, ?_⟩
  simp only [DFMutex.lockOutcome, Mutex.lockOutcome, hagree]

theorem dfmutex_is_plain_mutex_witness :
    (([⟨5, cellInit, 1⟩] : Heap Nat)[0]?
        = ([⟨5, cellInit, 1⟩, ⟨7, cellInit, 2⟩] : Heap Nat)[0]?)
    ∧ DFMutex.lockOutcome ([⟨5, cellInit, 1⟩] : Heap Nat) ⟨0⟩
        = DFMutex.lockOutcome ([⟨5, cellInit, 1⟩, ⟨7, cellInit, 2⟩] : Heap Nat) ⟨0⟩ :=
  ⟨by decide,
   (dfmutex_is_plain_mutex [⟨5, cellInit, 1⟩] [⟨5, cellInit, 1⟩, ⟨7, cellInit, 2⟩]
      0 ⟨0⟩ (by decide)).2.2.2⟩

/-- C6 (amended): `clone` returns a new handle referring to the same cell
as the original — it never re-initializes the cell — increments the
shared reference count, leaves the protected value and the
exclusion/poison state of the cell untouched and every other cell
unchanged; but `clone` is crate-private (`fn clone(&self)`, src/lib.rs
line 62, has no `pub`), not part of the public in-process API. -/
theorem clone_shares_cell {T : Type} (h : Heap T) (m : DFMutex) (c : Cell T)
    (hc : h[m.internal]? = some c) :
    (DFMutex.clone h m).1.internal = m.internal
    ∧ ((DFMutex.clone h m).2)[m.internal]?
        = some ⟨c.value, c.st, c.refcount + 1⟩
    ∧ (∀ j : Nat, j ≠ m.internal →
        ((DFMutex.clone h m).2)[j]? = h[j]?)
    ∧ sigClone.vis = Vis.priv := by
  refine ⟨?_, ?_, ?_, rfl⟩
  · simp [DFMutex.clone, Arc.clone, hc]
  · simp [DFMutex.clone, Arc.clone, hc, getElem?_set_self_of_some hc]
  · intro j hj
    simp [DFMutex.clone, Arc.clone, hc, List.getElem?_set_ne (Ne.symm hj)]

theorem clone_shares_cell_witness :
    (([⟨3, cellInit, 1⟩] : Heap Nat)[0]? = some ⟨3, cellInit, 1⟩)
    ∧ sigClone.vis = Vis.priv :=
  ⟨by decide,
   (clone_shares_cell ([⟨3, cellInit, 1⟩] : Heap Nat) ⟨0⟩ ⟨3, cellInit, 1⟩
      (by decide)).2.2.2⟩

/-- C6 counterexample: the claim as stated also asserts that
`handle.clone()` is part of the public in-process API boundary. It is not:
`fn clone(&self)` (src/lib.rs line 62) carries no `pub` and `DFMutex`
does not derive `Clone`. At a concrete one-cell heap the behavioural
conjunct holds but the publicness conjunct fails, so the conjunction is
false. -/
theorem clone_public_counterexample :
    ¬ ((DFMutex.clone ([⟨0, cellInit, 1⟩] : Heap Nat) ⟨0⟩).1.internal = 0
        ∧ sigClone.vis = Vis.pub) := by
  decide

/-- C5: `spawn` internally clones the given handle — sharing the cell,
not copying the protected value: the handle moved into the spawned unit
points to the caller's cell, whose reference count is incremented while
its value and exclusion state stay untouched — hands the clone plus the
work to a newly started unit, and returns that unit's task handle
unconditionally (the definition never consults the lock state, so the
caller is not blocked). A value written through the spawned unit's handle
is read back through the caller's handle. -/
theorem spawn_shares_cell {T : Type} (h : Heap T) (pool : Nat) (m : DFMutex)
    (c : Cell T) (hc : h[m.internal]? = some c) :
    (spawn h pool m).movedHandle.internal = m.internal
    ∧ (spawn h pool m).task = pool
    ∧ ((spawn h pool m).heap)[m.internal]?
        = some ⟨c.value, c.st, c.refcount + 1⟩
    ∧ (∀ v : T, Heap.readVal (Heap.writeVal (spawn h pool m).heap
          ((spawn h pool m).movedHandle.internal) v) m.internal = some v) := by
  have h1 : (spawn h pool m).movedHandle.internal = m.internal := by
    simp [spawn, DFMutex.clone, Arc.clone, hc]
  have h3 : ((spawn h pool m).heap)[m.internal]?
      = some ⟨c.value, c.st, c.refcount + 1⟩ := by
    simp [spawn, DFMutex.clone, Arc.clone, hc, getElem?_set_self_of_some hc]
  refine ⟨h1, rfl, h3, ?_⟩
  intro v
  rw [h1]
  simp [Heap.writeVal, Heap.readVal, h3, getElem?_set_self_of_some h3]

theorem spawn_shares_cell_witness :
    (([⟨9, cellInit, 1⟩] : Heap Nat)[0]? = some ⟨9, cellInit, 1⟩)
    ∧ (spawn ([⟨9, cellInit, 1⟩] : Heap Nat) 0 ⟨0⟩).movedHandle.internal = 0 :=
  ⟨by decide,
   (spawn_shares_cell ([⟨9, cellInit, 1⟩] : Heap Nat) 0 ⟨0⟩ ⟨9, cellInit, 1⟩
      (by decide)).1⟩

/-- C8: `join` on a task handle blocks exactly while that unit is still
running, returns the work's result exactly when the unit finished
normally, fails with `ThreadPanicked` exactly when the unit terminated
abnormally, and its outcome depends only on that unit: changing any other
unit's outcome (e.g. another unit panicking) leaves this join unchanged.
The error is the join's return value — surfaced synchronously to the
caller, never retried. -/
theorem join_semantics {R : Type} (ts : List (ThreadOutcome R)) (i : Nat)
    (o : ThreadOutcome R) (hts : ts[i]? = some o) :
    (joinOn ts i = none ↔ o = ThreadOutcome.running)
    ∧ (∀ r : R, joinOn ts i = some (Except.ok r) ↔ o = ThreadOutcome.finished r)
    ∧ (joinOn ts i = some (Except.error JoinErr.ThreadPanicked) ↔
        o = ThreadOutcome.panicked)
    ∧ (∀ j : Nat, ∀ o2 : ThreadOutcome R, j ≠ i →
        joinOn (ts.set j o2) i = joinOn ts i) := by
  refine ⟨?_, ?_, ?_, ?_⟩
  · simp only [joinOn, hts]
    cases o <;> simp [joinResult]
  · intro r
    simp only [joinOn, hts]
    cases o <;> simp [joinResult]
  · simp only [joinOn, hts]
    cases o <;> simp [joinResult]
  · intro j o2 hji
    simp only [joinOn, List.getElem?_set_ne hji]

theorem join_semantics_witness :
    (([ThreadOutcome.panicked] : List (ThreadOutcome Nat))[0]?
        = some ThreadOutcome.panicked)
    ∧ (joinOn ([ThreadOutcome.panicked] : List (ThreadOutcome Nat)) 0
        = some (Except.error JoinErr.ThreadPanicked) ↔
        (ThreadOutcome.panicked : ThreadOutcome Nat) = ThreadOutcome.panicked) :=
  ⟨by decide,
   (join_semantics ([ThreadOutcome.panicked] : List (ThreadOutcome Nat)) 0
      ThreadOutcome.panicked (by decide)).2.2.1⟩

/-- C10: `lock` takes `&mut self` (exclusive access to the handle
object), so two concurrent acquire attempts can never go through the same
handle — Rust's exclusive borrows force each concurrent acquirer to own
its own handle; `clone` is crate-private, and among the public items
(`new`, `lock`, `spawn`) only `spawn` produces an additional handle to an
existing cell — the handle it moves into the spawned unit shares the
caller's cell. -/
theorem lock_exclusive_clone_private :
    sigLock.selfMutable = true
    ∧ sigClone.vis = Vis.priv
    ∧ sigNew.vis = Vis.pub ∧ sigLock.vis = Vis.pub ∧ sigSpawn.vis = Vis.pub
    ∧ (∀ (h : Heap Nat) (pool : Nat) (m : DFMutex),
        (spawn h pool m).movedHandle.internal = m.internal) := by
  refine ⟨rfl, rfl, rfl, rfl, rfl, ?_⟩
  intro h pool m
  cases hc : h[m.internal]? <;>
    simp [spawn, DFMutex.clone, Arc.clone, hc]
